import Mathlib

/-!
Verification of the ADC128 SPI sampling tool (`src/adc128s052-tool.c`) against
its natural-language specification.  The definitions below are a shallow
embedding of `main`'s computation: the channel-index computation, the transmit
buffer builder, the received-word decoder, the statistics double loop and the
report loop, and the post-transfer control flow of `main` (its aborts and its
return value).  Machine integers are modelled as `Nat`/`Int` with explicit
reductions modulo `2^16`/`2^64` where the C types truncate.
-/

namespace Adc128

/-- Model of `__bswap_16` applied to a 16-bit value: swaps the two bytes. -/
def bswap16 (x : Nat) : Nat := (x % 256) * 256 + (x / 256) % 256

/-- Reading `*(unsigned short *)p` from two consecutive buffer bytes `b0, b1`
(`b0` at the lower address).  The assembled value depends on the host byte
order: little-endian hosts yield `b0 + 256*b1`, big-endian hosts
`256*b0 + b1`. -/
def load16 (hostLE : Bool) (b0 b1 : Nat) : Nat :=
  if hostLE then b0 + 256 * b1 else 256 * b0 + b1

/-- The decoded sample stream: `val = __bswap_16(*ptr++)` over consecutive
2-byte words of a byte buffer (line 210 of the source). -/
def decodeVals (hostLE : Bool) : List Nat → List Nat
  | b0 :: b1 :: rest => bswap16 (load16 hostLE b0 b1) :: decodeVals hostLE rest
  | _ => []

/-- `ch = (channels[j] - 0x30) % 16` with C `int` semantics: the character code
`c` minus `0x30`, truncated remainder (`Int.tmod`, which is what C's `%`
computes) by 16.  Used at lines 209 and 230 of the source. -/
def chOf (c : Nat) : Int := ((c : Int) - 0x30).tmod 16

/-- `(channels[j] - 0x30) << 3` stored into an `unsigned short` slot of the
transmit buffer (line 182): the shift is a multiplication by 8 and the store
reduces modulo `2^16`. -/
def txWord (c : Nat) : Nat := ((((c : Int) - 0x30) * 8) % 65536).toNat

/-- The two bytes a 16-bit store `*ptr++ = w` writes, in host byte order. -/
def txWordBytes (hostLE : Bool) (c : Nat) : List Nat :=
  if hostLE then [txWord c % 256, txWord c / 256] else [txWord c / 256, txWord c % 256]

/-- Bytes written by the inner `j` loop of the transmit-buffer fill
(lines 180-182): one 16-bit command word per channel character. -/
def passBytes (hostLE : Bool) : List Nat → List Nat
  | [] => []
  | c :: cs => txWordBytes hostLE c ++ passBytes hostLE cs

/-- Bytes written by the full double loop: `samples` repetitions of one pass. -/
def txStream (hostLE : Bool) (chs : List Nat) : Nat → List Nat
  | 0 => []
  | n + 1 => passBytes hostLE chs ++ txStream hostLE chs n

/-- `len = strlen(channels) * 2 * samples + 2` (line 159). -/
def lenBytes (chs : List Nat) (samples : Nat) : Nat :=
  chs.length * 2 * samples + 2

/-- The transmit buffer after the fill loop: the written prefix followed by the
untouched remainder of the `malloc` allocation (whose prior contents `init`
are not cleared by the program). -/
def buildTxBuf (hostLE : Bool) (chs : List Nat) (samples : Nat) (init : List Nat) : List Nat :=
  txStream hostLE chs samples ++ init.drop (chs.length * 2 * samples)

/-- The three 16-entry statistics arrays `min[16]`, `max[16]`, `sum[16]`
(lines 108-110), modelled as total maps from the (signed C `int`) index.
Entry types: `min`/`max` are `uint16_t`, `sum` is `uint64_t`. -/
structure AdcState where
  min : Int → Nat
  max : Int → Nat
  sum : Int → Nat

/-- A concrete all-zero statistics state, used to instantiate runs (the C
arrays are uninitialized; theorems quantify over the initial state). -/
def zeroState : AdcState := ⟨fun _ => 0, fun _ => 0, fun _ => 0⟩

/-- One body of the statistics double loop (lines 208-226) at channel index
`ch` with decoded value `val`; `first` is the `i == 0` test guarding the
reset of `min`/`max`/`sum`.  `sum[ch] += val` is a `uint64_t` addition. -/
def slotStep (first : Bool) (st : AdcState) (ch : Int) (val : Nat) : AdcState :=
  let st1 := if first then
      { min := Function.update st.min ch 65535,
        max := Function.update st.max ch 0,
        sum := Function.update st.sum ch 0 }
    else st
  let st2 := if val < st1.min ch then { st1 with min := Function.update st1.min ch val } else st1
  let st3 := if val > st2.max ch then { st2 with max := Function.update st2.max ch val } else st2
  { st3 with sum := Function.update st3.sum ch ((st3.sum ch + val) % 18446744073709551616) }

/-- The inner `j` loop of the statistics pass: fold `slotStep` over the
`(channel index, decoded value)` pairs of one pass. -/
def runPass (first : Bool) (st : AdcState) (pairs : List (Int × Nat)) : AdcState :=
  pairs.foldl (fun s p => slotStep first s p.1 p.2) st

/-- The `(channel index, decoded value)` pairs consumed during pass `i`: the
channel indices in plan order, zipped with the `i`-th block of
`strlen(channels)` decoded values. -/
def passPairs (chs : List Nat) (vals : List Nat) (i : Nat) : List (Int × Nat) :=
  (chs.map chOf).zip ((vals.drop (i * chs.length)).take chs.length)

/-- The whole statistics double loop (lines 207-226): passes `i = 0,…,
samples-1` in order, the reset firing on `i == 0`. -/
def aggregate (chs : List Nat) (vals : List Nat) (samples : Nat) (st : AdcState) : AdcState :=
  (List.range samples).foldl (fun s i => runPass (i == 0) s (passPairs chs vals i)) st

/-- `uint64_t` subtraction `a - b` (wrapping), as used for the printed
`dmin`/`dmax` columns. -/
def sub64 (a b : Nat) : Nat :=
  (a % 18446744073709551616 + (18446744073709551616 - b % 18446744073709551616)) %
    18446744073709551616

/-- The report loop (lines 229-235): one printed tuple
`(ch, min, sum/samples, max, sum/samples - min, max - sum/samples)` per
character of the channel string, in string order. -/
def reportList (chs : List Nat) (samples : Nat) (st : AdcState) :
    List (Int × Nat × Nat × Nat × Nat × Nat) :=
  chs.map (fun c =>
    (chOf c, st.min (chOf c), st.sum (chOf c) / samples, st.max (chOf c),
     sub64 (st.sum (chOf c) / samples) (st.min (chOf c)),
     sub64 (st.max (chOf c)) (st.sum (chOf c) / samples)))

/-- The `pabort` call sites of `main`, identified by their diagnostic. -/
inductive AbortReason where
  | cantOpenDevice
  | cantSetSpiMode
  | cantGetSpiMode
  | cantSetMaxSpeedHz
  | cantGetMaxSpeedHz
  | cannotAllocateTxBuf
  | cannotAllocateRxBuf
  | cantSendSpiMessage
  | couldNotOpenOutputFile
  | notAllBytesWritten
  deriving DecidableEq

/-- What a completed (non-aborted) run produces: the printed statistics report,
whether the capture was written to the output file, and `main`'s return
value `ret`. -/
structure RunOutcome where
  report : List (Int × Nat × Nat × Nat × Nat × Nat)
  wrote : Bool
  ret : Int
  deriving DecidableEq

/-- Result of a run of `main`: an abort (`pabort`) or a completed run. -/
inductive RunResult where
  | abort (reason : AbortReason)
  | done (out : RunOutcome)
  deriving DecidableEq

/-- `main` from the SPI transfer onwards (lines 188-260), as a function of the
collaborator results: `ioctlRet` is the `SPI_IOC_MESSAGE` return, `rx` the
bytes the exchange left in the receive buffer, `openRet`/`writeRet` the
output-file `open`/`write` returns.  The transfer check is `ret < 1`; the
statistics are computed from the receive buffer starting at byte offset 2;
with an output file the written slice check is `ret != len - 2` and `main`
returns the `write` result, otherwise it returns the `ioctl` result. -/
def runMain (hostLE : Bool) (chs : List Nat) (samples : Nat) (st0 : AdcState)
    (ioctlRet : Int) (rx : List Nat) (outputFile : Bool) (openRet writeRet : Int) : RunResult :=
  if ioctlRet < 1 then .abort .cantSendSpiMessage
  else
    let st := aggregate chs (decodeVals hostLE (rx.drop 2)) samples st0
    let rep := reportList chs samples st
    if outputFile then
      if openRet < 0 then .abort .couldNotOpenOutputFile
      else if writeRet ≠ (lenBytes chs samples : Int) - 2 then .abort .notAllBytesWritten
      else .done ⟨rep, true, writeRet⟩
    else .done ⟨rep, false, ioctlRet⟩

/-- Claim C7: for every channel string of length L and every sample count
N ≥ 1, the computed transfer block length in bytes equals `L*2*N + 2`. -/
theorem c7_len_formula (chs : List Nat) (n : Nat) (h : 1 ≤ n) :
    lenBytes chs n = chs.length * 2 * n + 2 := rfl

/-- Witness for C7 at channels "01", samples 3: length `2*2*3 + 2 = 14`. -/
theorem c7_len_formula_witness : 1 ≤ 3 ∧ lenBytes [48, 49] 3 = 2 * 2 * 3 + 2 :=
  ⟨by decide, c7_len_formula [48, 49] 3 (by decide)⟩

/-- Claim C5 (evaluation at the failing input): the decoder is
`__bswap_16` of a host-order 16-bit load, so the byte pair `{0x01, 0x02}`
decodes to `0x0102 = 258` on a little-endian host but to `0x0201 = 513` on a
big-endian host — not `0x0102` regardless of host endianness as claimed. -/
theorem c5_bswap_decode :
    decodeVals true [1, 2] = [258] ∧ decodeVals false [1, 2] = [513] ∧ (513 : Nat) ≠ 258 := by
  decide

/-- Claim C10: every statistics-array access index is
`(c - 0x30) % 16` (C truncated remainder); for every channel string whose
character codes are all ≥ 0x30 — including non-digits above '9' — every
index used by the aggregation and report loops lies in [0, 15]. -/
theorem c10_index_range (chs : List Nat) (h : ∀ c ∈ chs, 0x30 ≤ c) :
    ∀ i ∈ chs.map chOf, 0 ≤ i ∧ i < 16 := by
  intro i hi
  rcases List.mem_map.mp hi with ⟨c, hc, rfl⟩
  have hc' : (0x30 : Int) ≤ (c : Int) := by exact_mod_cast h c hc
  have h0 : (0 : Int) ≤ (c : Int) - 0x30 := by omega
  constructor
  · exact Int.tmod_nonneg 16 h0
  · exact Int.tmod_lt_of_pos _ (by norm_num)

/-- Witness for C10 at the string "0:" (a digit and a non-digit above '9'):
both indices, 0 and 10, lie in [0, 15]. -/
theorem c10_index_range_witness :
    (∀ c ∈ [48, 58], 0x30 ≤ c) ∧ ∀ i ∈ [48, 58].map chOf, 0 ≤ i ∧ i < 16 :=
  ⟨by decide, c10_index_range [48, 58] (by decide)⟩

/-- Claim C3 is false as stated: a transfer reporting 3 bytes out of the
requested `lenBytes = 4` is not rejected — the check is `ret < 1`, so the run
completes, statistics are computed and the output file is written. -/
theorem c3_counterexample :
    (3 : Int) < (lenBytes [48] 1 : Int) ∧
      runMain true [48] 1 zeroState 3 [9, 9, 0, 50] true 0 2 =
        .done ⟨[(0, 50, 50, 50, 0, 0)], true, 2⟩ := by
  decide

/-- Claim C3 (amended): the program aborts with `TransferError`
("Can't send spi message") exactly when the exchange reports fewer than 1
byte transferred (`ret < 1`); a short-but-positive byte count is accepted and
the pipeline continues.  On that abort nothing further runs: no statistics
and no file output exist in the result. -/
theorem c3_transfer_abort_iff (hostLE : Bool) (chs : List Nat) (samples : Nat)
    (st0 : AdcState) (ioctlRet : Int) (rx : List Nat) (outputFile : Bool)
    (openRet writeRet : Int) :
    runMain hostLE chs samples st0 ioctlRet rx outputFile openRet writeRet =
        .abort .cantSendSpiMessage ↔ ioctlRet < 1 := by
  unfold runMain
  split_ifs <;> simp_all

/-- Claim C4 is false as stated: there is no input validation.  An empty
channel string is accepted (the run completes with an empty report), and a
sample count of 0 is accepted as well — no `InvalidChannelSpec` or
`InvalidSampleCount` failure exists in the program. -/
theorem c4_counterexample :
    runMain true [] 1 zeroState 2 [0, 0] false 0 0 = .done ⟨[], false, 2⟩ ∧
      runMain true [] 0 zeroState 2 [0, 0] false 0 0 = .done ⟨[], false, 2⟩ := by
  decide

/-- Claim C4 (amended): the program performs no validation of the channel
string or the sample count: with an empty channel string the pipeline
proceeds through transfer, (empty) statistics and report for every sample
count, including 0, and completes normally. -/
theorem c4_no_validation (hostLE : Bool) (samples : Nat) (st0 : AdcState)
    (ioctlRet : Int) (rx : List Nat) (openRet writeRet : Int) (h : 1 ≤ ioctlRet) :
    runMain hostLE [] samples st0 ioctlRet rx false openRet writeRet =
      .done ⟨[], false, ioctlRet⟩ := by
  unfold runMain
  rw [if_neg (by omega)]
  simp [reportList]

/-- Witness for C4 (amended) at sample count 0 and an empty channel string:
the run completes with an empty report. -/
theorem c4_no_validation_witness :
    (1 : Int) ≤ 2 ∧
      runMain true [] 0 zeroState 2 [5, 6] false (-1) 7 = .done ⟨[], false, 2⟩ :=
  ⟨by decide, c4_no_validation true 0 zeroState 2 [5, 6] (-1) 7 (by decide)⟩

/-- Claim C6 is false as stated: for the plan "00" the report prints channel 0
twice (one entry per character of the channel string), not once per distinct
channel. -/
theorem c6_counterexample :
    (reportList [48, 48] 1 zeroState).map (fun e => e.1) = [0, 0] ∧
      (reportList [48, 48] 1 zeroState).length ≠ 1 := by
  decide

/-- Claim C6 (amended): the report prints one entry per character of the
channel string, in string order; a channel appearing k times in the plan is
reported k times (its identical statistics repeated), not once. -/
theorem c6_report_per_position (chs : List Nat) (samples : Nat) (st : AdcState) :
    (reportList chs samples st).map (fun e => e.1) = chs.map chOf := by
  simp [reportList, List.map_map]

/-- Claim C8 is false as stated: the transmit buffer is `malloc`ed and the
fill loop writes only the leading `L*2*N` bytes, so the trailing 2 bytes keep
the allocation's previous contents — here 0xAA 0xAA, not zero. -/
theorem c8_counterexample :
    buildTxBuf true [48] 1 (List.replicate 4 170) = [0, 0, 170, 170] ∧
      (buildTxBuf true [48] 1 (List.replicate 4 170)).drop 2 ≠ [0, 0] := by
  decide

/-- The pass fill writes `2 * L` bytes per pass. -/
theorem passBytes_length (hostLE : Bool) (chs : List Nat) :
    (passBytes hostLE chs).length = 2 * chs.length := by
  induction chs with
  | nil => rfl
  | cons c cs ih =>
      unfold passBytes txWordBytes
      split_ifs <;> simp [ih] <;> omega

/-- The full fill loop writes `n * (2 * L)` bytes. -/
theorem txStream_length (hostLE : Bool) (chs : List Nat) (n : Nat) :
    (txStream hostLE chs n).length = n * (2 * chs.length) := by
  induction n with
  | zero => simp [txStream]
  | succ m ih => unfold txStream; simp [ih, passBytes_length]; ring

/-- Claim C8 (amended): for every allocation contents and every plan, the
builder leaves the trailing 2 bytes of the transmit buffer untouched: bytes
`lenBytes-2` and `lenBytes-1` are exactly the allocation's prior bytes at
those positions (the program never zeroes them). -/
theorem c8_trailing_untouched (hostLE : Bool) (chs : List Nat) (samples : Nat)
    (init : List Nat) (h : init.length = lenBytes chs samples) :
    (buildTxBuf hostLE chs samples init).length = lenBytes chs samples ∧
      (buildTxBuf hostLE chs samples init).drop (chs.length * 2 * samples) =
        init.drop (chs.length * 2 * samples) := by
  have hlen : (txStream hostLE chs samples).length = chs.length * 2 * samples := by
    rw [txStream_length]; ring
  constructor
  · unfold buildTxBuf
    rw [List.length_append, hlen, List.length_drop, h]
    unfold lenBytes
    omega
  · unfold buildTxBuf
    rw [List.drop_append_of_le_length (by omega), List.drop_eq_nil_of_le (by omega)]
    simp

/-- Witness for C8 (amended) at channels "7", samples 2, allocation contents
`[1,2,3,4,5,6]`: the buffer keeps length 6 and its trailing bytes 5, 6. -/
theorem c8_trailing_untouched_witness :
    ([1, 2, 3, 4, 5, 6] : List Nat).length = lenBytes [55] 2 ∧
      ((buildTxBuf true [55] 2 [1, 2, 3, 4, 5, 6]).length = lenBytes [55] 2 ∧
        (buildTxBuf true [55] 2 [1, 2, 3, 4, 5, 6]).drop (1 * 2 * 2) =
          ([1, 2, 3, 4, 5, 6] : List Nat).drop (1 * 2 * 2)) :=
  ⟨by decide, c8_trailing_untouched true [55] 2 [1, 2, 3, 4, 5, 6] (by decide)⟩

/-- Scalar shadow of `slotStep`: the evolution of the single triple
`(min[ch], max[ch], sum[ch])` under one slot of the statistics loop. -/
def scalarStep (first : Bool) (t : Nat × Nat × Nat) (v : Nat) : Nat × Nat × Nat :=
  let t1 := if first then (65535, 0, 0) else t
  let mn := if v < t1.1 then v else t1.1
  let mx := if v > t1.2.1 then v else t1.2.1
  (mn, mx, (t1.2.2 + v) % 18446744073709551616)

/-- Unfolding `runPass` over a cons. -/
theorem runPass_cons (first : Bool) (st : AdcState) (p : Int × Nat) (ps : List (Int × Nat)) :
    runPass first st (p :: ps) = runPass first (slotStep first st p.1 p.2) ps := rfl

/-- A slot at channel `ch` moves the `ch` entries exactly as `scalarStep`. -/
theorem slotStep_proj (first : Bool) (st : AdcState) (ch : Int) (v : Nat) :
    ((slotStep first st ch v).min ch, (slotStep first st ch v).max ch,
      (slotStep first st ch v).sum ch) =
      scalarStep first (st.min ch, st.max ch, st.sum ch) v := by
  cases first <;>
    · unfold slotStep scalarStep
      simp only [Bool.false_eq_true, if_false, if_true, Function.update_same]
      split_ifs <;> simp_all [Function.update_same]

/-- A slot at another channel `ch'` leaves the `ch` entries untouched. -/
theorem slotStep_proj_ne (first : Bool) (st : AdcState) (ch ch' : Int) (v : Nat)
    (h : ch' ≠ ch) :
    ((slotStep first st ch' v).min ch, (slotStep first st ch' v).max ch,
      (slotStep first st ch' v).sum ch) = (st.min ch, st.max ch, st.sum ch) := by
  cases first <;>
    · unfold slotStep
      simp only [Bool.false_eq_true, if_false, if_true]
      split_ifs <;> simp_all [Function.update_noteq (Ne.symm h)]

/-- Folding commutes with a projection that commutes step-wise. -/
theorem foldl_proj_comm {α σ τ : Type} (p : σ → τ) (f : σ → α → σ) (g : τ → α → τ)
    (h : ∀ s a, p (f s a) = g (p s) a) :
    ∀ (l : List α) (s : σ), p (l.foldl f s) = l.foldl g (p s) := by
  intro l
  induction l with
  | nil => intro s; rfl
  | cons a as ih => intro s; rw [List.foldl_cons, List.foldl_cons, ih, h]

/-- The decoded values a pass feeds into channel `ch`, in slot order. -/
def chValues (ch : Int) (pairs : List (Int × Nat)) : List Nat :=
  (pairs.filter (fun p => p.1 == ch)).map Prod.snd

/-- A pass moves the `ch` entries exactly as the scalar fold of the values the
pass feeds into channel `ch`. -/
theorem runPass_proj (ch : Int) (first : Bool) :
    ∀ (pairs : List (Int × Nat)) (st : AdcState),
      ((runPass first st pairs).min ch, (runPass first st pairs).max ch,
        (runPass first st pairs).sum ch) =
        (chValues ch pairs).foldl (scalarStep first) (st.min ch, st.max ch, st.sum ch) := by
  intro pairs
  induction pairs with
  | nil => intro st; rfl
  | cons p ps ih =>
      intro st
      rcases p with ⟨a, v⟩
      by_cases hac : a = ch
      · subst hac
        have hcv : chValues a ((a, v) :: ps) = v :: chValues a ps := by
          simp [chValues, List.filter_cons]
        rw [runPass_cons, ih, slotStep_proj, hcv, List.foldl_cons]
      · have hcv : chValues ch ((a, v) :: ps) = chValues ch ps := by
          simp [chValues, List.filter_cons, hac]
        rw [runPass_cons, ih, slotStep_proj_ne _ _ _ _ _ hac, hcv]

/-- The whole statistics loop moves the `ch` entries exactly as the pass-wise
scalar folds. -/
theorem aggregate_proj (chs vals : List Nat) (samples : Nat) (st : AdcState) (ch : Int) :
    ((aggregate chs vals samples st).min ch, (aggregate chs vals samples st).max ch,
      (aggregate chs vals samples st).sum ch) =
      (List.range samples).foldl
        (fun t i => (chValues ch (passPairs chs vals i)).foldl (scalarStep (i == 0)) t)
        (st.min ch, st.max ch, st.sum ch) := by
  unfold aggregate
  exact foldl_proj_comm (fun s => (s.min ch, s.max ch, s.sum ch)) _
    (fun t i => (chValues ch (passPairs chs vals i)).foldl (scalarStep (i == 0)) t)
    (fun s i => runPass_proj ch (i == 0) (passPairs chs vals i) s) _ _

/-- A channel absent from the slot list receives no values. -/
theorem filter_zip_not_mem (ch : Int) :
    ∀ (names : List Int) (values : List Nat), ch ∉ names →
      (names.zip values).filter (fun p => p.1 == ch) = [] := by
  intro names
  induction names with
  | nil => intro values _; rfl
  | cons n ns ih =>
      intro values h
      cases values with
      | nil => rfl
      | cons w vs =>
          have hn : ¬ (n = ch) := fun he => h (he ▸ List.mem_cons_self n ns)
          simp only [List.zip_cons_cons, List.filter_cons]
          rw [if_neg (by simp [hn])]
          exact ih vs (fun hm => h (List.mem_cons_of_mem _ hm))

/-- With pairwise-distinct slot channels, a channel present in the slot list
receives exactly one value per pass. -/
theorem filter_zip_singleton (ch : Int) :
    ∀ (names : List Int) (values : List Nat), names.Nodup → ch ∈ names →
      names.length ≤ values.length →
      ∃ v ∈ values, (names.zip values).filter (fun p => p.1 == ch) = [(ch, v)] := by
  intro names
  induction names with
  | nil => intro values _ h _; exact absurd h (List.not_mem_nil ch)
  | cons n ns ih =>
      intro values hnd hmem hlen
      cases values with
      | nil => simp at hlen
      | cons w vs =>
          by_cases hnc : n = ch
          · subst hnc
            have hnot : n ∉ ns := (List.nodup_cons.mp hnd).1
            refine ⟨w, List.mem_cons_self w vs, ?_⟩
            simp only [List.zip_cons_cons, List.filter_cons, beq_self_eq_true, if_true]
            rw [filter_zip_not_mem n ns vs hnot]
          · have hm' : ch ∈ ns := by
              rcases List.mem_cons.mp hmem with h | h
              · exact absurd h.symm hnc
              · exact h
            have hlen' : ns.length ≤ vs.length := by
              simp only [List.length_cons] at hlen; omega
            obtain ⟨v, hv, he⟩ := ih vs (List.nodup_cons.mp hnd).2 hm' hlen'
            refine ⟨v, List.mem_cons_of_mem w hv, ?_⟩
            simp only [List.zip_cons_cons, List.filter_cons]
            rw [if_neg (by simp [hnc])]
            exact he

/-- With a duplicate-free plan, pass `i` feeds exactly one decoded value into
the channel of each plan character. -/
theorem chValues_passPairs (chs vals : List Nat) (samples i : Nat) (c : Nat)
    (hnd : (chs.map chOf).Nodup) (hc : c ∈ chs)
    (hlen : vals.length = samples * chs.length) (hi : i < samples) :
    ∃ v ∈ vals, chValues (chOf c) (passPairs chs vals i) = [v] := by
  have hmem : chOf c ∈ chs.map chOf := List.mem_map_of_mem chOf hc
  have hmul : (i + 1) * chs.length = i * chs.length + chs.length := by ring
  have hmul2 : (i + 1) * chs.length ≤ samples * chs.length :=
    Nat.mul_le_mul_right _ hi
  have hlen2 : (chs.map chOf).length ≤
      ((vals.drop (i * chs.length)).take chs.length).length := by
    simp only [List.length_map, List.length_take, List.length_drop, hlen]
    omega
  obtain ⟨v, hv, he⟩ := filter_zip_singleton (chOf c) (chs.map chOf) _ hnd hmem hlen2
  refine ⟨v, List.drop_subset _ _ (List.take_subset _ _ hv), ?_⟩
  unfold chValues passPairs
  rw [he]
  rfl

/-- Invariant of one channel's statistics triple `(min, max, sum)` after `n`
decoded samples have been folded in since the last reset: `min ≤ max`, `max`
fits a `uint16`, and the (untruncated) sum lies between `min * n` and
`max * n`. -/
def StatsInv (n : Nat) (t : Nat × Nat × Nat) : Prop :=
  t.1 ≤ t.2.1 ∧ t.2.1 < 65536 ∧ t.1 * n ≤ t.2.2 ∧ t.2.2 ≤ t.2.1 * n

/-- A reset slot (`i == 0`) leaves the triple at exactly the slot's value. -/
theorem scalarStep_true_eq (t : Nat × Nat × Nat) (v : Nat) (hv : v < 65536) :
    scalarStep true t v = (v, v, v) := by
  unfold scalarStep
  simp only [if_true]
  split_ifs <;> simp_all <;> omega

/-- A non-reset slot takes the min, the max, and the wrapped sum. -/
theorem scalarStep_false_eq (t : Nat × Nat × Nat) (v : Nat) :
    scalarStep false t v =
      (if v < t.1 then v else t.1, if v > t.2.1 then v else t.2.1,
        (t.2.2 + v) % 18446744073709551616) := rfl

/-- The invariant holds with one sample after a reset slot. -/
theorem statsInv_one (t : Nat × Nat × Nat) (v : Nat) (hv : v < 65536) :
    StatsInv 1 (scalarStep true t v) := by
  rw [scalarStep_true_eq t v hv]
  exact ⟨le_refl v, hv, le_of_eq (Nat.mul_one v), le_of_eq (Nat.mul_one v).symm⟩

/-- The invariant is preserved by a non-reset slot (the `uint64` sum does not
wrap because `n + 1` stays within the C `int` range). -/
theorem statsInv_step (n : Nat) (t : Nat × Nat × Nat) (v : Nat)
    (ht : StatsInv n t) (hv : v < 65536) (hn : n + 1 ≤ 2 ^ 31) :
    StatsInv (n + 1) (scalarStep false t v) := by
  rcases t with ⟨m, M, s⟩
  obtain ⟨h1, h2, h3, h4⟩ := ht
  replace h1 : m ≤ M := h1
  replace h2 : M < 65536 := h2
  replace h3 : m * n ≤ s := h3
  replace h4 : s ≤ M * n := h4
  have hMn : M * n ≤ 65535 * (2 ^ 31 - 1) := by
    calc M * n ≤ 65535 * n := Nat.mul_le_mul_right n (by omega)
    _ ≤ 65535 * (2 ^ 31 - 1) := Nat.mul_le_mul_left _ (by omega)
  have hs64 : s + v < 18446744073709551616 := by omega
  rw [scalarStep_false_eq]
  show StatsInv (n + 1)
    (if v < m then v else m, if v > M then v else M, (s + v) % 18446744073709551616)
  rw [Nat.mod_eq_of_lt hs64]
  show (if v < m then v else m) ≤ (if v > M then v else M) ∧
    (if v > M then v else M) < 65536 ∧
    (if v < m then v else m) * (n + 1) ≤ s + v ∧
    s + v ≤ (if v > M then v else M) * (n + 1)
  rcases Nat.lt_or_ge v m with hvm | hvm
  · rcases Nat.lt_or_ge M v with hMv | hMv
    · rw [if_pos hvm, if_pos hMv]
      have pA : v * n ≤ m * n := Nat.mul_le_mul_right n (le_of_lt hvm)
      have pB : M * n ≤ v * n := Nat.mul_le_mul_right n (le_of_lt hMv)
      have e1 : v * (n + 1) = v * n + v := by ring
      refine ⟨le_refl v, hv, ?_, ?_⟩ <;> omega
    · rw [if_pos hvm, if_neg (by omega)]
      have pA : v * n ≤ m * n := Nat.mul_le_mul_right n (le_of_lt hvm)
      have e1 : v * (n + 1) = v * n + v := by ring
      have e2 : M * (n + 1) = M * n + M := by ring
      refine ⟨by omega, h2, ?_, ?_⟩ <;> omega
  · rcases Nat.lt_or_ge M v with hMv | hMv
    · rw [if_neg (by omega), if_pos hMv]
      have pB : M * n ≤ v * n := Nat.mul_le_mul_right n (le_of_lt hMv)
      have e1 : m * (n + 1) = m * n + m := by ring
      have e2 : v * (n + 1) = v * n + v := by ring
      refine ⟨by omega, hv, ?_, ?_⟩ <;> omega
    · rw [if_neg (by omega), if_neg (by omega)]
      have e1 : m * (n + 1) = m * n + m := by ring
      have e2 : M * (n + 1) = M * n + M := by ring
      refine ⟨h1, h2, ?_, ?_⟩ <;> omega

/-- The invariant is preserved by folding any further non-reset slots. -/
theorem statsInv_foldl (vs : List Nat) :
    ∀ (n : Nat) (t : Nat × Nat × Nat), StatsInv n t → (∀ v ∈ vs, v < 65536) →
      n + vs.length ≤ 2 ^ 31 →
      StatsInv (n + vs.length) (vs.foldl (scalarStep false) t) := by
  induction vs with
  | nil => intro n t ht _ _; simpa using ht
  | cons v vs ih =>
      intro n t ht hv hn
      simp only [List.length_cons] at hn
      have h1 : StatsInv (n + 1) (scalarStep false t v) :=
        statsInv_step n t v ht (hv v (List.mem_cons_self v vs)) (by omega)
      have h2 := ih (n + 1) (scalarStep false t v) h1
        (fun w hw => hv w (List.mem_cons_of_mem v hw)) (by omega)
      have e : n + 1 + vs.length = n + (v :: vs).length := by simp; omega
      rw [e] at h2
      exact h2

/-- Across the passes `i = s, …, s + k - 1` (all with `i ≥ 1`, hence without
reset), a channel of a duplicate-free plan folds in exactly one decoded value
per pass, preserving the invariant. -/
theorem statsInv_passes (chs vals : List Nat) (samples : Nat) (c : Nat)
    (hnd : (chs.map chOf).Nodup) (hc : c ∈ chs)
    (hlen : vals.length = samples * chs.length) (hv : ∀ v ∈ vals, v < 65536) :
    ∀ (k s : Nat) (t : Nat × Nat × Nat) (n : Nat), 1 ≤ s → s + k ≤ samples →
      StatsInv n t → n + k ≤ 2 ^ 31 →
      StatsInv (n + k)
        ((List.range' s k).foldl
          (fun t i => (chValues (chOf c) (passPairs chs vals i)).foldl (scalarStep (i == 0)) t)
          t) := by
  intro k
  induction k with
  | zero => intro s t n _ _ ht _; simpa using ht
  | succ m ih =>
      intro s t n hs hsk ht hn
      rw [List.range'_succ]
      simp only [List.foldl_cons]
      obtain ⟨v, hvmem, hcv⟩ :=
        chValues_passPairs chs vals samples s c hnd hc hlen (by omega)
      have hs0 : (s == 0) = false := beq_eq_false_iff_ne.mpr (by omega)
      rw [hcv, hs0]
      simp only [List.foldl_cons, List.foldl_nil]
      have h1 : StatsInv (n + 1) (scalarStep false t v) :=
        statsInv_step n t v ht (hv v hvmem) (by omega)
      have h2 := ih (s + 1) (scalarStep false t v) (n + 1) (by omega) (by omega) h1 (by omega)
      have e : n + 1 + m = n + (m + 1) := by omega
      rw [e] at h2
      exact h2

/-- After the whole statistics loop, each channel of a duplicate-free plan
satisfies the invariant with exactly `samples` folded values. -/
theorem aggregate_statsInv (chs vals : List Nat) (samples : Nat) (init : AdcState) (c : Nat)
    (hs : 1 ≤ samples) (hs31 : samples ≤ 2 ^ 31) (hnd : (chs.map chOf).Nodup)
    (hv : ∀ v ∈ vals, v < 65536) (hlen : vals.length = samples * chs.length)
    (hc : c ∈ chs) :
    StatsInv samples
      ((aggregate chs vals samples init).min (chOf c),
        (aggregate chs vals samples init).max (chOf c),
        (aggregate chs vals samples init).sum (chOf c)) := by
  rw [aggregate_proj]
  obtain ⟨k, rfl⟩ : ∃ k, samples = k + 1 := ⟨samples - 1, by omega⟩
  rw [List.range_eq_range', List.range'_succ]
  simp only [List.foldl_cons]
  obtain ⟨v0, hv0mem, hcv0⟩ :=
    chValues_passPairs chs vals (k + 1) 0 c hnd hc hlen (by omega)
  rw [hcv0]
  simp only [Nat.zero_add, beq_self_eq_true, List.foldl_cons, List.foldl_nil]
  have h1 : StatsInv 1
      (scalarStep true (init.min (chOf c), init.max (chOf c), init.sum (chOf c)) v0) :=
    statsInv_one _ v0 (hv v0 hv0mem)
  have h2 := statsInv_passes chs vals (k + 1) c hnd hc hlen hv k 1 _ 1
    (le_refl 1) (by omega) h1 (by omega)
  have e : 1 + k = k + 1 := by omega
  rw [e] at h2
  exact h2

/-- Claim C2 is false as stated: for the plan "00" with 2 samples and decoded
values [50, 150, 50, 150], channel 0 ends with sum 350, so the reported
average 350/2 = 175 exceeds the reported max 150. -/
theorem c2_counterexample :
    (aggregate [48, 48] [50, 150, 50, 150] 2 zeroState).sum 0 / 2 = 175 ∧
      (aggregate [48, 48] [50, 150, 50, 150] 2 zeroState).max 0 = 150 ∧
      ¬ ((aggregate [48, 48] [50, 150, 50, 150] 2 zeroState).sum 0 / 2 ≤
          (aggregate [48, 48] [50, 150, 50, 150] 2 zeroState).max 0) := by
  decide

/-- Claim C2 (amended): for every plan whose channel indices are pairwise
distinct (no channel repeated within a pass), every decoded value sequence
of 16-bit values covering all passes, and every initial array contents,
whenever at least one sample was recorded (`samples ≥ 1`, within the C `int`
range) the channel of every plan character satisfies
`min ≤ sum/samples ≤ max` — the reported `min ≤ average ≤ max`. -/
theorem c2_min_le_avg_le_max (chs vals : List Nat) (samples : Nat) (init : AdcState)
    (c : Nat) (hs : 1 ≤ samples) (hs31 : samples ≤ 2 ^ 31)
    (hnd : (chs.map chOf).Nodup) (hv : ∀ v ∈ vals, v < 65536)
    (hlen : vals.length = samples * chs.length) (hc : c ∈ chs) :
    (aggregate chs vals samples init).min (chOf c) ≤
        (aggregate chs vals samples init).sum (chOf c) / samples ∧
      (aggregate chs vals samples init).sum (chOf c) / samples ≤
        (aggregate chs vals samples init).max (chOf c) := by
  obtain ⟨h1, h2, h3, h4⟩ := aggregate_statsInv chs vals samples init c hs hs31 hnd hv hlen hc
  replace h3 : (aggregate chs vals samples init).min (chOf c) * samples ≤
      (aggregate chs vals samples init).sum (chOf c) := h3
  replace h4 : (aggregate chs vals samples init).sum (chOf c) ≤
      (aggregate chs vals samples init).max (chOf c) * samples := h4
  constructor
  · exact (Nat.le_div_iff_mul_le (by omega)).mpr h3
  · exact Nat.div_le_of_le_mul (by rw [Nat.mul_comm] at h4; exact h4)

/-- Witness for C2 (amended) at channels "01", samples 2, decoded values
[10, 20, 30, 40]: channel 0 gets min 10, average 20, max 30. -/
theorem c2_min_le_avg_le_max_witness :
    (1 ≤ 2 ∧ (([48, 49] : List Nat).map chOf).Nodup ∧ 48 ∈ [48, 49]) ∧
      ((aggregate [48, 49] [10, 20, 30, 40] 2 zeroState).min (chOf 48) ≤
          (aggregate [48, 49] [10, 20, 30, 40] 2 zeroState).sum (chOf 48) / 2 ∧
        (aggregate [48, 49] [10, 20, 30, 40] 2 zeroState).sum (chOf 48) / 2 ≤
          (aggregate [48, 49] [10, 20, 30, 40] 2 zeroState).max (chOf 48)) :=
  ⟨⟨by decide, by decide, by decide⟩,
    c2_min_le_avg_le_max [48, 49] [10, 20, 30, 40] 2 zeroState 48 (by decide) (by decide)
      (by decide) (by decide) (by decide) (by decide)⟩

/-- Claim C1 is false as stated: for channels "00", samples=1, decoded values
[50, 150], the reset fires at every slot of the first pass (it is keyed on
`i == 0` alone), so the second slot re-resets channel 0 and the final
statistics are min=150, max=150, sum=150 — not min=50, max=150, sum=200. -/
theorem c1_counterexample :
    ((aggregate [48, 48] [50, 150] 1 zeroState).min 0 = 150 ∧
      (aggregate [48, 48] [50, 150] 1 zeroState).max 0 = 150 ∧
      (aggregate [48, 48] [50, 150] 1 zeroState).sum 0 = 150 ∧
      (aggregate [48, 48] [50, 150] 1 zeroState).sum 0 / 1 = 150) ∧
    ¬ ((aggregate [48, 48] [50, 150] 1 zeroState).min 0 = 50 ∧
        (aggregate [48, 48] [50, 150] 1 zeroState).max 0 = 150 ∧
        (aggregate [48, 48] [50, 150] 1 zeroState).sum 0 = 200) := by
  decide

/-- Claim C1 (amended): the reset is keyed on `i == 0` alone, so during the
first sample pass every slot re-resets its channel's accumulators; for every
initial array contents, channels "00", samples=1, decoded values [50, 150],
the final channel-0 statistics are min=150, max=150, sum=150, average=150. -/
theorem c1_reset_every_slot (init : AdcState) :
    (aggregate [48, 48] [50, 150] 1 init).min 0 = 150 ∧
      (aggregate [48, 48] [50, 150] 1 init).max 0 = 150 ∧
      (aggregate [48, 48] [50, 150] 1 init).sum 0 = 150 ∧
      (aggregate [48, 48] [50, 150] 1 init).sum 0 / 1 = 150 := by
  have h := aggregate_proj [48, 48] [50, 150] 1 init 0
  have hcv : chValues 0 (passPairs [48, 48] [50, 150] 0) = [50, 150] := by decide
  rw [show List.range 1 = [0] from by decide] at h
  simp only [List.foldl_cons, List.foldl_nil, beq_self_eq_true] at h
  rw [hcv] at h
  simp only [List.foldl_cons, List.foldl_nil] at h
  have e1 : scalarStep true (init.min 0, init.max 0, init.sum 0) 50 = (50, 50, 50) :=
    scalarStep_true_eq _ _ (by norm_num)
  rw [e1, scalarStep_true_eq _ _ (by norm_num : (150 : Nat) < 65536)] at h
  simp only [Prod.mk.injEq] at h
  exact ⟨h.1, h.2.1, h.2.2, by rw [h.2.2]⟩

set_option maxRecDepth 40000 in
/-- Claim C9 is false as stated: a fully successful run (full transfer of the
258-byte block for 1 channel and 128 samples, successful 256-byte file write)
returns 256, whose low 8 bits — the process exit status — are 0. -/
theorem c9_counterexample :
    runMain true [48] 128 zeroState 258 (List.replicate 258 0) true 0 256 =
      .done ⟨[(0, 0, 0, 0, 0, 0)], true, 256⟩ ∧ (256 : Int) % 256 = 0 := by
  decide

/-- Claim C9 (amended): on every fully successful invocation `main` returns
the last collaborator byte count — the `ioctl` result when no output file is
given, or the `write` result `lenBytes - 2` when the output file write
succeeds — and that return value is positive; but the process exit status is
its value modulo 256, which is 0 whenever the byte count is a multiple of
256, so the exit status is not always non-zero. -/
theorem c9_return_value (hostLE : Bool) (chs : List Nat) (samples : Nat) (st0 : AdcState)
    (ioctlRet : Int) (rx : List Nat) (openRet writeRet : Int)
    (h1 : 1 ≤ ioctlRet) (h2 : 1 ≤ samples) (h3 : chs ≠ []) :
    (runMain hostLE chs samples st0 ioctlRet rx false openRet writeRet =
        .done ⟨reportList chs samples
            (aggregate chs (decodeVals hostLE (rx.drop 2)) samples st0), false, ioctlRet⟩ ∧
      0 < ioctlRet) ∧
    (0 ≤ openRet → writeRet = (lenBytes chs samples : Int) - 2 →
      runMain hostLE chs samples st0 ioctlRet rx true openRet writeRet =
          .done ⟨reportList chs samples
              (aggregate chs (decodeVals hostLE (rx.drop 2)) samples st0), true, writeRet⟩ ∧
        0 < writeRet) := by
  constructor
  · constructor
    · unfold runMain
      rw [if_neg (by omega)]
      simp
    · omega
  · intro h4 h5
    constructor
    · unfold runMain
      rw [if_neg (by omega)]
      simp only [if_true]
      rw [if_neg (by omega), if_neg (by simp [h5])]
    · rw [h5]
      have hL : 1 ≤ chs.length := List.length_pos.mpr h3
      have hNat : 2 ≤ chs.length * 2 * samples := by
        have := Nat.mul_le_mul (Nat.mul_le_mul hL (le_refl 2)) h2
        simpa using this
      unfold lenBytes
      omega

/-- Witness for C9 (amended): a successful no-output-file run with a 4-byte
transfer returns the ioctl result 4. -/
theorem c9_return_value_witness :
    ((1 : Int) ≤ 4 ∧ 1 ≤ 1 ∧ ([48] : List Nat) ≠ []) ∧
      runMain true [48] 1 zeroState 4 [0, 0, 0, 7] false 0 2 =
        .done ⟨[(0, 7, 7, 7, 0, 0)], false, 4⟩ :=
  ⟨⟨by decide, by decide, by decide⟩,
    ((c9_return_value true [48] 1 zeroState 4 [0, 0, 0, 7] 0 2 (by decide) (by decide)
        (by decide)).1.1).trans (by decide)⟩

end Adc128
